import Mathlib

/-!
Verification of the concurrency toolkit in `lmcdonough/python-multithreaded-service`.

Shallow embedding conventions:
- Python exceptions are modelled with `Except String`; a raised `ValueError`
  becomes `Except.error msg` with the source's message text.
- Machine integers are `Int`/`Nat` (Python integers are unbounded, so no
  wrap-around is modelled).
- Each multithreaded demo is embedded as an explicit small-step state machine:
  a scheduling of the threads is a list of events, a step function consumes one
  event (returning `none` when the event is not enabled in the current state),
  and the theorems quantify over all event sequences, i.e. all interleavings.
-/

/-! ## CPU workload: `src/multithreaded_service/cpu_tasks.py` -/

/-- Embedding of `fib` from `cpu_tasks.py`:
`if n < 0: raise ValueError("n must be >= 0"); if n <= 1: return n;
return fib(n - 1) + fib(n - 2)`.  The two recursive calls are evaluated
left to right and a raised exception propagates, exactly as in Python. -/
def fib (n : Int) : Except String Int :=
  if n < 0 then Except.error "n must be >= 0"
  else if n ≤ 1 then Except.ok n
  else
    match fib (n - 1), fib (n - 2) with
    | Except.ok a, Except.ok b => Except.ok (a + b)
    | Except.error e, _ => Except.error e
    | _, Except.error e => Except.error e
termination_by n.toNat
decreasing_by
  · omega
  · omega

/-- Pure single-threaded reference Fibonacci on naturals,
`fibRef 0 = 0`, `fibRef 1 = 1`, `fibRef (k+2) = fibRef (k+1) + fibRef k`. -/
def fibRef : Nat → Int
  | 0 => 0
  | 1 => 1
  | k + 2 => fibRef (k + 1) + fibRef k

/-- Embedding of `sum_range` from `cpu_tasks.py`:
`if n < 0: raise ValueError("n must be >= 0"); return sum(range(n))`. -/
def sum_range (n : Int) : Except String Int :=
  if n < 0 then Except.error "n must be >= 0"
  else Except.ok (Int.ofNat (List.range n.toNat).sum)

/-- On a natural-number input, `fib` returns `Except.ok` of the reference value. -/
theorem fib_ofNat : ∀ m : Nat, fib (m : Int) = Except.ok (fibRef m) := by
  intro m
  induction m using Nat.strong_induction_on with
  | _ m ih =>
    match m with
    | 0 => unfold fib; norm_num [fibRef]
    | 1 => unfold fib; norm_num [fibRef]
    | k + 2 =>
      unfold fib
      have h0 : ¬ ((((k + 2 : Nat) : Int)) < 0) := by push_cast; omega
      have h1 : ¬ ((((k + 2 : Nat) : Int)) ≤ 1) := by push_cast; omega
      rw [if_neg h0, if_neg h1]
      have e1 : ((k + 2 : Nat) : Int) - 1 = ((k + 1 : Nat) : Int) := by push_cast; ring
      have e2 : ((k + 2 : Nat) : Int) - 2 = ((k : Nat) : Int) := by push_cast; ring
      rw [e1, e2, ih (k + 1) (by omega), ih k (by omega)]
      simp [fibRef]

/-- C5: `fib` raises `ValueError` for every negative input, returns 0 for 0 and
1 for 1, and satisfies `fib k = fib (k-1) + fib (k-2)` for every `k ≥ 2`. -/
theorem fib_spec :
    (∀ n : Int, n < 0 → fib n = Except.error "n must be >= 0") ∧
    fib 0 = Except.ok 0 ∧ fib 1 = Except.ok 1 ∧
    (∀ k : Int, 2 ≤ k → ∃ a b, fib (k - 1) = Except.ok a ∧ fib (k - 2) = Except.ok b ∧
      fib k = Except.ok (a + b)) := by
  refine ⟨?_, ?_, ?_, ?_⟩
  · intro n hn
    unfold fib
    rw [if_pos hn]
  · have h := fib_ofNat 0
    simpa [fibRef] using h
  · have h := fib_ofNat 1
    simpa [fibRef] using h
  · intro k hk
    obtain ⟨j, hj⟩ : ∃ j, k.toNat = j + 2 := ⟨k.toNat - 2, by omega⟩
    have e0 : k = ((j + 2 : Nat) : Int) := by omega
    have e1 : k - 1 = ((j + 1 : Nat) : Int) := by omega
    have e2 : k - 2 = ((j : Nat) : Int) := by omega
    refine ⟨fibRef (j + 1), fibRef j, ?_, ?_, ?_⟩
    · rw [e1, fib_ofNat]
    · rw [e2, fib_ofNat]
    · rw [e0, fib_ofNat]
      rfl

/-- Witness for C5 at the concrete inputs `n = -1` and `k = 5`. -/
theorem fib_spec_witness :
    fib (-1) = Except.error "n must be >= 0" ∧
    (∃ a b, fib (5 - 1) = Except.ok a ∧ fib (5 - 2) = Except.ok b ∧
      fib 5 = Except.ok (a + b)) :=
  ⟨fib_spec.1 (-1) (by norm_num), fib_spec.2.2.2 5 (by norm_num)⟩

/-- Gauss summation for `List.range`, doubled to stay inside `Nat`. -/
theorem range_sum_two (m : Nat) : (List.range m).sum * 2 = m * (m - 1) := by
  induction m with
  | zero => rfl
  | succ k ih =>
    rw [List.range_succ, List.sum_append]
    simp only [List.sum_cons, List.sum_nil, Nat.add_zero]
    cases k with
    | zero => rfl
    | succ j =>
      simp only [Nat.succ_sub_one] at ih ⊢
      nlinarith [ih]

/-- C10: `sum_range n` returns the sum of the integers from 0 through `n-1`,
equal to `n * (n-1) / 2`, for every `n ≥ 0`, and raises `ValueError` for
every `n < 0`. -/
theorem sum_range_spec :
    (∀ n : Int, n < 0 → sum_range n = Except.error "n must be >= 0") ∧
    (∀ n : Int, 0 ≤ n → sum_range n = Except.ok (n * (n - 1) / 2)) := by
  constructor
  · intro n hn
    unfold sum_range
    rw [if_pos hn]
  · intro n hn
    unfold sum_range
    rw [if_neg (by omega)]
    congr 1
    have hnm : ((n.toNat : Nat) : Int) = n := Int.toNat_of_nonneg hn
    have hsum2 : (List.range n.toNat).sum * 2 = n.toNat * (n.toNat - 1) := range_sum_two n.toNat
    rcases Nat.eq_zero_or_pos n.toNat with h0 | h1
    · have hn0 : n = 0 := by omega
      subst hn0
      decide
    · have hm1 : ((n.toNat - 1 : Nat) : Int) = (n.toNat : Int) - 1 := by omega
      have hcast : (Int.ofNat ((List.range n.toNat).sum)) * 2 = n * (n - 1) := by
        rw [← hnm, ← hm1]
        exact_mod_cast congrArg (Int.ofNat) hsum2
      calc Int.ofNat ((List.range n.toNat).sum)
          = (Int.ofNat ((List.range n.toNat).sum)) * 2 / 2 :=
            (Int.mul_ediv_cancel _ (by norm_num)).symm
        _ = n * (n - 1) / 2 := by rw [hcast]

/-- Witness for C10 at the concrete inputs `n = -3` and `n = 6`. -/
theorem sum_range_spec_witness :
    sum_range (-3) = Except.error "n must be >= 0" ∧
    sum_range 6 = Except.ok (6 * (6 - 1) / 2) :=
  ⟨sum_range_spec.1 (-3) (by norm_num), sum_range_spec.2 6 (by norm_num)⟩

/-! ## Runtime configuration: `src/multithreaded_service/config.py`

The process environment is modelled as a lookup function
`env : String -> Option String` (the result of `os.getenv`). -/

/-- Characters stripped by Python's `str.strip()` (ASCII whitespace). -/
def isSpaceChar (c : Char) : Bool :=
  c = ' ' || c = '\t' || c = '\n' || c = '\r' || c = '\x0b' || c = '\x0c'

/-- Strip leading and trailing whitespace, as `int(<str>)` does before parsing. -/
def trimChars (cs : List Char) : List Char :=
  ((cs.dropWhile isSpaceChar).reverse.dropWhile isSpaceChar).reverse

/-- Digit run after the first digit: Python's integer literals allow single
underscores between digits, so an underscore must be followed by a digit and
may not follow another underscore (`afterSep` tracks a pending underscore). -/
def pyDigitsRest (cs : List Char) (acc : Nat) (afterSep : Bool) : Option Nat :=
  match cs with
  | [] => if afterSep then none else some acc
  | c :: rest =>
    if c.isDigit then pyDigitsRest rest (acc * 10 + (c.toNat - 48)) false
    else if c = '_' then
      if afterSep then none else pyDigitsRest rest acc true
    else none

/-- Digit run: the first character must be a digit (not an underscore). -/
def pyDigitsStart (cs : List Char) : Option Nat :=
  match cs with
  | [] => none
  | c :: rest => if c.isDigit then pyDigitsRest rest (c.toNat - 48) false else none

/-- Signed decimal body of Python's `int(<str>)`. -/
def pyParseIntCore (cs : List Char) : Option Int :=
  match cs with
  | '+' :: rest => (pyDigitsStart rest).map Int.ofNat
  | '-' :: rest => (pyDigitsStart rest).map (fun m => -(Int.ofNat m))
  | _ => (pyDigitsStart cs).map Int.ofNat

/-- Model of Python's `int(<str>)` on ASCII decimal strings: surrounding
whitespace is stripped, then an optional sign and a digit run with optional
single underscores between digits; `none` models a raised `ValueError`.
(Non-ASCII digit forms accepted by CPython are out of scope.) -/
def pyParseInt (s : String) : Option Int :=
  pyParseIntCore (trimChars s.toList)

/-- Truthy value set of `env_bool`: `{"1", "true", "yes", "on"}`. -/
def pyTruthy : List String := ["1", "true", "yes", "on"]

/-- Embedding of `env_bool` from `config.py`: `default` when the variable is
unset, otherwise `val.lower() in {"1","true","yes","on"}`.  The comparison is
total, so the surrounding `try/except` can never fire; the function never
raises by construction. -/
def env_bool (env : String → Option String) (key : String) (default : Bool) : Bool :=
  match env key with
  | none => default
  | some val => decide (val.toLower ∈ pyTruthy)

/-- Embedding of `env_int` from `config.py`: `default` when the variable is
unset; otherwise `int(val)`, with the `except` branch (a parse failure)
returning `default`.  Total, hence never raises. -/
def env_int (env : String → Option String) (key : String) (default : Int) : Int :=
  match env key with
  | none => default
  | some val =>
    match pyParseInt val with
    | some i => i
    | none => default

/-- Embedding of `env_float` from `config.py`, parametric in the value type
and in the parser: Python's `float(<str>)` produces an IEEE-754 double, whose
rounding semantics a shallow embedding does not reproduce, so the parser
`parseFloat` is abstract (`none` models a raised `ValueError`).  The control
flow is the source's: `default` when unset, parsed value on success,
`default` when the `except` branch catches a parse failure. -/
def env_float {F : Type} (parseFloat : String → Option F)
    (env : String → Option String) (key : String) (default : F) : F :=
  match env key with
  | none => default
  | some val =>
    match parseFloat val with
    | some x => x
    | none => default

/-- C7: each configuration getter never raises (it is a total function),
returns the parsed typed value when the variable is set to a well-formed
value, and returns the caller's default when the variable is unset or its
value is malformed for the requested type.  For booleans every string is
well-formed: the parse is the truthy-set membership test. -/
theorem env_getters_spec {F : Type} (parseFloat : String → Option F)
    (env : String → Option String) (key : String) (db : Bool) (di : Int) (df : F) :
    (env key = none →
      env_bool env key db = db ∧ env_int env key di = di ∧
      env_float parseFloat env key df = df) ∧
    (∀ val, env key = some val →
      env_bool env key db = decide (val.toLower ∈ pyTruthy) ∧
      (∀ i, pyParseInt val = some i → env_int env key di = i) ∧
      (pyParseInt val = none → env_int env key di = di) ∧
      (∀ x, parseFloat val = some x → env_float parseFloat env key df = x) ∧
      (parseFloat val = none → env_float parseFloat env key df = df)) := by
  constructor
  · intro h
    simp [env_bool, env_int, env_float, h]
  · intro val h
    refine ⟨?_, ?_, ?_, ?_, ?_⟩
    · simp [env_bool, h]
    · intro i hi
      simp [env_int, h, hi]
    · intro hi
      simp [env_int, h, hi]
    · intro x hx
      simp [env_float, h, hx]
    · intro hx
      simp [env_float, h, hx]

/-- Witness for C7 on a concrete two-variable environment: a set well-formed
integer is parsed, an unset key falls back to the default, and a malformed
integer falls back to the default. -/
theorem env_getters_spec_witness :
    env_int (fun k => if k = "W" then some " 42 " else if k = "B" then some "oops" else none)
      "W" 7 = 42 ∧
    env_int (fun k => if k = "W" then some " 42 " else if k = "B" then some "oops" else none)
      "M" 7 = 7 ∧
    env_int (fun k => if k = "W" then some " 42 " else if k = "B" then some "oops" else none)
      "B" 7 = 7 := by
  have h1 := (env_getters_spec (fun _ => (none : Option Unit))
    (fun k => if k = "W" then some " 42 " else if k = "B" then some "oops" else none)
    "W" false 7 ()).2 " 42 " (by decide)
  have h2 := (env_getters_spec (fun _ => (none : Option Unit))
    (fun k => if k = "W" then some " 42 " else if k = "B" then some "oops" else none)
    "M" false 7 ()).1 (by decide)
  have h3 := (env_getters_spec (fun _ => (none : Option Unit))
    (fun k => if k = "W" then some " 42 " else if k = "B" then some "oops" else none)
    "B" false 7 ()).2 "oops" (by decide)
  exact ⟨h1.2.1 42 (by decide), h2.2.1, h3.2.2.1 (by decide)⟩

/-! ## Scoped timer: `src/multithreaded_service/timing.py`

Wall-clock time is not representable in a shallow embedding, so the elapsed
duration measured by the two `time.perf_counter()` calls is an explicit
parameter, given in ten-thousandths of a second so that the 4-decimal
rendering of `f"{dur:.4f}"` is exact. -/

/-- Render a duration given in ten-thousandths of a second with exactly four
decimal places, as Python's `f"{dur:.4f}"` renders the elapsed seconds. -/
def fmtFixed4 (tenThousandths : Nat) : String :=
  let frac := toString (tenThousandths % 10000)
  toString (tenThousandths / 10000) ++ "." ++
    String.mk (List.replicate (4 - frac.length) '0') ++ frac

/-- Observable behaviour of one `with timer(label):` block. -/
structure TimerOut (ε α : Type) where
  printed : List String
  logged : List String
  outcome : Except ε α

/-- Python's `a or b` on an optional string, as in `label or "block"`:
`None` and the empty string are falsy, any other string is itself. -/
def pyOrStr (a : Option String) (b : String) : String :=
  match a with
  | none => b
  | some s => if s = "" then b else s

/-- Embedding of the `timer` context manager from `timing.py`.  The wrapped
block is a computation that either finishes normally (`Except.ok`) or raises
(`Except.error`); `exName` gives `type(e).__name__` for a raised exception and
`dur` is the elapsed duration at the exit point.  On normal exit the timer
prints `"<label or 'block'> <dur:.4f>s"`; on exceptional exit it logs
`"label=<label or 'n/a'> error=<kind> duration_s=<dur:.4f>"` and re-raises the
original exception (the outcome stays `Except.error e`).  Both label
fallbacks use Python `or` truthiness (`pyOrStr`): an absent label and an
empty-string label alike fall back to `"block"` / `"n/a"`. -/
def timer {ε α : Type} (label : Option String) (dur : Nat) (exName : ε → String)
    (body : Except ε α) : TimerOut ε α :=
  match body with
  | Except.ok a =>
    { printed := [pyOrStr label "block" ++ " " ++ fmtFixed4 dur ++ "s"]
      logged := []
      outcome := Except.ok a }
  | Except.error e =>
    { printed := []
      logged := ["label=" ++ pyOrStr label "n/a" ++ " error=" ++ exName e ++
        " duration_s=" ++ fmtFixed4 dur]
      outcome := Except.error e }

/-- C6: on normal exit the timer prints the label (or `"block"` when the
label is absent or falsy) followed by the duration with 4 decimal places and
an `"s"` suffix and logs nothing; on exceptional exit it logs the label (or
`"n/a"`), the exception kind and the duration to 4 decimals, prints nothing,
and re-raises the original exception unchanged — in both cases the outcome
equals the wrapped block's outcome, so the failure is never swallowed or
altered. -/
theorem timer_spec {ε α : Type} (label : Option String) (dur : Nat)
    (exName : ε → String) (body : Except ε α) :
    (timer label dur exName body).outcome = body ∧
    (∀ a, body = Except.ok a →
      (timer label dur exName body).printed =
        [pyOrStr label "block" ++ " " ++ fmtFixed4 dur ++ "s"] ∧
      (timer label dur exName body).logged = []) ∧
    (∀ e, body = Except.error e →
      (timer label dur exName body).logged =
        ["label=" ++ pyOrStr label "n/a" ++ " error=" ++ exName e ++
          " duration_s=" ++ fmtFixed4 dur] ∧
      (timer label dur exName body).printed = []) := by
  refine ⟨?_, ?_, ?_⟩
  · cases body <;> simp [timer]
  · intro a ha
    subst ha
    simp [timer]
  · intro e he
    subst he
    simp [timer]

/-- Witness for C6: a labelled failing block with elapsed 1.2345 seconds, an
unlabelled successful block with elapsed 0.0007 seconds, and an
empty-string-labelled block on each exit path, exercising the falsy-label
fallbacks. -/
theorem timer_spec_witness :
    (timer (some "step") 12345 (fun s => s)
      (Except.error "ValueError" : Except String Unit)).outcome =
      Except.error "ValueError" ∧
    (timer (some "step") 12345 (fun s => s)
      (Except.error "ValueError" : Except String Unit)).logged =
      ["label=step error=ValueError duration_s=1.2345"] ∧
    (timer none 7 (fun s => s) (Except.ok () : Except String Unit)).printed =
      ["block 0.0007s"] ∧
    (timer (some "") 7 (fun s => s) (Except.ok () : Except String Unit)).printed =
      ["block 0.0007s"] ∧
    (timer (some "") 12345 (fun s => s)
      (Except.error "ValueError" : Except String Unit)).logged =
      ["label=n/a error=ValueError duration_s=1.2345"] := by
  have h1 := timer_spec (some "step") 12345 (fun s => s)
    (Except.error "ValueError" : Except String Unit)
  have h2 := timer_spec none 7 (fun s => s) (Except.ok () : Except String Unit)
  have h3 := timer_spec (some "") 7 (fun s => s) (Except.ok () : Except String Unit)
  have h4 := timer_spec (some "") 12345 (fun s => s)
    (Except.error "ValueError" : Except String Unit)
  refine ⟨h1.1, ?_, ?_, ?_, ?_⟩
  · rw [(h1.2.2 "ValueError" rfl).1]
    decide
  · rw [(h2.2.1 () rfl).1]
    decide
  · rw [(h3.2.1 () rfl).1]
    decide
  · rw [(h4.2.2 "ValueError" rfl).1]
    decide

/-! ## Process pool sizing: `src/cpu_multiprocessing.py` line 27 -/

/-- Python's `a or b` on an optional integer: `None` and `0` are falsy. -/
def pyOrNat (a : Option Nat) (b : Nat) : Nat :=
  match a with
  | none => b
  | some v => if v = 0 then b else v

/-- Pool size chosen by `run_process_pool`:
`ProcessPoolExecutor(max_workers=max_workers or (os.cpu_count() or 2))`,
with `cpuCount` the value returned by `os.cpu_count()` (`none` when the
platform cannot determine it). -/
def pool_max_workers (maxWorkers : Option Nat) (cpuCount : Option Nat) : Nat :=
  pyOrNat maxWorkers (pyOrNat cpuCount 2)

/-- Counterexample to C9 as stated: on a single-core machine
(`os.cpu_count() = 1`) the defaulted pool size is 1, not at least 2, so the
pool is not "sized to the available core count with a minimum of 2 workers". -/
theorem pool_max_workers_no_min2 :
    pool_max_workers none (some 1) = 1 ∧ ¬ (2 ≤ pool_max_workers none (some 1)) := by
  decide

/-- C9 (amended): when `maxWorkers` is omitted (or `None`), the pool is sized
to the available core count whenever that count is known and nonzero; the
fallback 2 is used only when `os.cpu_count()` is unavailable (`None`) or
reports 0, so the size can be 1 on a single-core machine. -/
theorem pool_max_workers_default (cpuCount : Option Nat) :
    (∀ k, cpuCount = some k → k ≠ 0 → pool_max_workers none cpuCount = k) ∧
    ((cpuCount = none ∨ cpuCount = some 0) → pool_max_workers none cpuCount = 2) := by
  constructor
  · intro k hk hk0
    subst hk
    simp [pool_max_workers, pyOrNat, hk0]
  · rintro (h | h) <;> subst h <;> rfl

/-- Witness for the amended C9 at core counts 8, `None` and 0. -/
theorem pool_max_workers_default_witness :
    pool_max_workers none (some 8) = 8 ∧ pool_max_workers none none = 2 ∧
    pool_max_workers none (some 0) = 2 :=
  ⟨(pool_max_workers_default (some 8)).1 8 rfl (by decide),
   (pool_max_workers_default none).2 (Or.inl rfl),
   (pool_max_workers_default (some 0)).2 (Or.inr rfl)⟩

/-! ## Counter demos: `src/multithreaded_service/threading_basics.py`

`safe_increment(n, loops)` starts `n` threads, each incrementing a shared
counter `loops` times while holding one shared `threading.Lock`, joins them
all, and returns the counter.  Because the whole read-modify-write happens
under the lock, one increment is one atomic step; a scheduling of the demo is
a list of thread indices, each entry being one completed locked increment. -/

/-- Shared state of `safe_increment`: the counter and, per thread, the number
of loop iterations that thread still has to run. -/
structure LockState where
  counter : Nat
  rem : List Nat
deriving DecidableEq

/-- Initial state of `safe_increment(w, l)`: counter 0, every one of the `w`
threads with `l` iterations left. -/
def lockInit (w l : Nat) : LockState :=
  { counter := 0, rem := List.replicate w l }

/-- One scheduled event: thread `t` acquires the lock, performs
`counter += 1`, and releases the lock; enabled only while thread `t` has
iterations left. -/
def lockStep (s : LockState) (t : Nat) : Option LockState :=
  match s.rem[t]? with
  | some (r + 1) => some { counter := s.counter + 1, rem := s.rem.set t r }
  | _ => none

/-- Run a schedule (list of thread indices) from a state. -/
def lockRun (s : LockState) : List Nat → Option LockState
  | [] => some s
  | t :: evs =>
    match lockStep s t with
    | some s2 => lockRun s2 evs
    | none => none

/-- All threads have finished their loops (the `join` calls return). -/
def lockDone (s : LockState) : Bool :=
  s.rem.all (fun r => r = 0)

/-- Setting an entry of a list of naturals changes its sum by the difference
of the entries. -/
theorem sum_set_nat :
    ∀ (l : List Nat) (t r x : Nat), l[t]? = some r → (l.set t x).sum + r = l.sum + x := by
  intro l
  induction l with
  | nil => intro t r x h; simp at h
  | cons a as ih =>
    intro t r x h
    cases t with
    | zero =>
      simp at h
      subst h
      simp [List.set]
      omega
    | succ k =>
      simp at h
      have := ih k r x h
      simp [List.set, List.sum_cons]
      omega

/-- One locked increment preserves `counter + Σ remaining`. -/
theorem lockStep_sum {s s2 : LockState} {t : Nat} (h : lockStep s t = some s2) :
    s2.counter + s2.rem.sum = s.counter + s.rem.sum := by
  unfold lockStep at h
  cases hg : s.rem[t]? with
  | none => rw [hg] at h; exact absurd h (by simp)
  | some r =>
    cases r with
    | zero => rw [hg] at h; exact absurd h (by simp)
    | succ r0 =>
      rw [hg] at h
      simp only [Option.some.injEq] at h
      subst h
      have := sum_set_nat s.rem t (r0 + 1) r0 hg
      simp only
      omega

/-- A whole schedule preserves `counter + Σ remaining`. -/
theorem lockRun_sum :
    ∀ (evs : List Nat) (s s2 : LockState), lockRun s evs = some s2 →
      s2.counter + s2.rem.sum = s.counter + s.rem.sum := by
  intro evs
  induction evs with
  | nil => intro s s2 h; simp [lockRun] at h; subst h; rfl
  | cons t rest ih =>
    intro s s2 h
    unfold lockRun at h
    cases hs : lockStep s t with
    | none => rw [hs] at h; exact absurd h (by simp)
    | some s1 =>
      rw [hs] at h
      rw [ih s1 s2 h, lockStep_sum hs]

/-- C1: for every worker count `w`, loop count `l`, and complete interleaving
of the `w` workers (every schedule that runs each worker to completion),
`safe_increment(w, l)` returns exactly `w * l` — the result is deterministic
regardless of thread scheduling. -/
theorem safe_increment_correct (w l : Nat) (evs : List Nat) (s : LockState)
    (hrun : lockRun (lockInit w l) evs = some s) (hdone : lockDone s = true) :
    s.counter = w * l := by
  have hsum := lockRun_sum evs (lockInit w l) s hrun
  have hzero : s.rem.sum = 0 := by
    apply List.sum_eq_zero
    intro x hx
    have := List.all_eq_true.mp hdone x hx
    simpa using this
  have hinit : (lockInit w l).counter + (lockInit w l).rem.sum = w * l := by
    simp [lockInit, List.sum_replicate, smul_eq_mul]
  omega

/-- Witness for C1: two workers, two loops each, under the interleaved
schedule 0,1,0,1; the final counter is exactly 2 * 2. -/
theorem safe_increment_correct_witness :
    ∃ s, lockRun (lockInit 2 2) [0, 1, 0, 1] = some s ∧ lockDone s = true ∧
      s.counter = 2 * 2 := by
  refine ⟨{ counter := 4, rem := [0, 0] }, by decide, by decide, ?_⟩
  exact safe_increment_correct 2 2 [0, 1, 0, 1] _ (by decide) (by decide)

/-! ## Racy counter: `unsafe_increment` in `threading_basics.py`

The loop body of each worker in the unsynchronized demo is deliberately split
into `tmp = counter` (read), `os.sched_yield()` (a pure scheduling point), and
`counter = tmp + 1` (write).  A thread is therefore a two-phase machine: it
reads the shared counter into its local `tmp`, then later writes `tmp + 1`
back, completing one loop iteration.  A scheduling is any interleaving of
read and write events of the individual threads. -/

/-- Per-thread state of the unsynchronized demo: remaining loop iterations and
the local `tmp` if the thread is between its read and its write. -/
structure RaceThread where
  rem : Nat
  tmp : Option Nat
deriving DecidableEq

/-- Shared state of the unsynchronized demo. -/
structure RaceState where
  counter : Nat
  threads : List RaceThread
deriving DecidableEq

/-- One scheduling event of the unsynchronized demo. -/
inductive RaceEvent where
  | read (t : Nat)
  | write (t : Nat)
deriving DecidableEq

/-- Initial state of the racy demo with `w` workers and `l` loops each. -/
def raceInit (w l : Nat) : RaceState :=
  { counter := 0, threads := List.replicate w { rem := l, tmp := none } }

/-- One event: `read t` is `tmp = counter` (enabled while the thread has
iterations left and holds no pending `tmp`); `write t` is `counter = tmp + 1`,
which finishes the iteration. -/
def raceStep (s : RaceState) (e : RaceEvent) : Option RaceState :=
  match e with
  | RaceEvent.read t =>
    match s.threads[t]? with
    | some th =>
      match th.tmp, th.rem with
      | none, _ + 1 =>
        some { s with threads := s.threads.set t { th with tmp := some s.counter } }
      | _, _ => none
    | none => none
  | RaceEvent.write t =>
    match s.threads[t]? with
    | some th =>
      match th.tmp with
      | some v =>
        some { counter := v + 1, threads := s.threads.set t { rem := th.rem - 1, tmp := none } }
      | none => none
    | none => none

/-- Run a schedule of read/write events from a state. -/
def raceRun (s : RaceState) : List RaceEvent → Option RaceState
  | [] => some s
  | e :: evs =>
    match raceStep s e with
    | some s2 => raceRun s2 evs
    | none => none

/-- All threads have finished all their iterations (the `join` calls return). -/
def raceDone (s : RaceState) : Bool :=
  s.threads.all (fun th => th.rem = 0 && th.tmp.isNone)

/-- Loop iterations still to be completed, summed over all threads. -/
def pendingWork (s : RaceState) : Nat :=
  (s.threads.map RaceThread.rem).sum

/-- Inductive invariant of the racy demo: the counter can never exceed the
number of already-completed writes (`bound - pendingWork`), and every pending
`tmp` is an old counter reading, so it is also bounded, and belongs to a
thread that still has its current iteration to finish. -/
def RaceInv (bound : Nat) (s : RaceState) : Prop :=
  s.counter + pendingWork s ≤ bound ∧
  ∀ th ∈ s.threads, ∀ v, th.tmp = some v → v + pendingWork s ≤ bound ∧ 1 ≤ th.rem

/-- Membership in a list after `set` comes from the old list or is the new
entry. -/
theorem mem_of_mem_set {α : Type} {l : List α} {t : Nat} {a x : α}
    (h : x ∈ l.set t a) : x ∈ l ∨ x = a := by
  induction l generalizing t with
  | nil => simp [List.set] at h
  | cons b bs ih =>
    cases t with
    | zero =>
      simp [List.set] at h
      rcases h with h | h
      · exact Or.inr h
      · exact Or.inl (List.mem_cons_of_mem b h)
    | succ k =>
      simp [List.set] at h
      rcases h with h | h
      · exact Or.inl (by simp [h])
      · rcases ih h with h2 | h2
        · exact Or.inl (List.mem_cons_of_mem b h2)
        · exact Or.inr h2

/-- Effect of replacing one thread's state on the pending-work sum. -/
theorem pendingWork_set (th2 : RaceThread) {l : List RaceThread} {t : Nat} {th : RaceThread}
    (hg : l[t]? = some th) :
    ((l.set t th2).map RaceThread.rem).sum + th.rem = (l.map RaceThread.rem).sum + th2.rem := by
  have hmap : (l.set t th2).map RaceThread.rem =
      (l.map RaceThread.rem).set t th2.rem := List.map_set
  have hg2 : (l.map RaceThread.rem)[t]? = some th.rem := by
    rw [List.getElem?_map, hg]
    rfl
  rw [hmap]
  exact sum_set_nat _ t th.rem th2.rem hg2

/-- One read or write event preserves the race invariant. -/
theorem raceStep_inv {bound : Nat} {s s2 : RaceState} {e : RaceEvent}
    (h : raceStep s e = some s2) (hinv : RaceInv bound s) : RaceInv bound s2 := by
  obtain ⟨hc, hp⟩ := hinv
  cases e with
  | read t =>
    cases hg : s.threads[t]? with
    | none =>
      simp only [raceStep, hg] at h
      exact Option.noConfusion h
    | some th =>
      cases htmp : th.tmp with
      | some v =>
        simp only [raceStep, hg, htmp] at h
        exact Option.noConfusion h
      | none =>
        cases hrem : th.rem with
        | zero =>
          simp only [raceStep, hg, htmp, hrem] at h
          exact Option.noConfusion h
        | succ r0 =>
          simp only [raceStep, hg, htmp, hrem] at h
          rw [← hrem] at h
          injection h with h
          subst h
          simp only [pendingWork] at hc
          have hps := pendingWork_set { th with tmp := some s.counter } hg
          have hpw :
              ((s.threads.set t { th with tmp := some s.counter }).map RaceThread.rem).sum =
              (s.threads.map RaceThread.rem).sum := by
            have hr : ({ th with tmp := some s.counter } : RaceThread).rem = th.rem := rfl
            omega
          constructor
          · simp only [pendingWork]
            rw [hpw]
            exact hc
          · intro th2 hmem v hv
            simp only [pendingWork]
            rw [hpw]
            rcases mem_of_mem_set hmem with hold | hnew
            · have hold2 := hp th2 hold v hv
              simp only [pendingWork] at hold2
              exact hold2
            · subst hnew
              simp only [Option.some.injEq] at hv
              subst hv
              refine ⟨hc, ?_⟩
              show 1 ≤ th.rem
              omega
  | write t =>
    cases hg : s.threads[t]? with
    | none =>
      simp only [raceStep, hg] at h
      exact Option.noConfusion h
    | some th =>
      cases htmp : th.tmp with
      | none =>
        simp only [raceStep, hg, htmp] at h
        exact Option.noConfusion h
      | some v =>
        simp only [raceStep, hg, htmp] at h
        injection h with h
        subst h
        have hthmem : th ∈ s.threads := List.getElem?_mem hg
        obtain ⟨hvb, hr1⟩ := hp th hthmem v htmp
        simp only [pendingWork] at hc hvb
        have hps := pendingWork_set { rem := th.rem - 1, tmp := none } hg
        have hpw :
            ((s.threads.set t { rem := th.rem - 1, tmp := none }).map RaceThread.rem).sum + 1 =
            (s.threads.map RaceThread.rem).sum := by
          have hr : ({ rem := th.rem - 1, tmp := none } : RaceThread).rem = th.rem - 1 := rfl
          omega
        constructor
        · simp only [pendingWork]
          omega
        · intro th2 hmem w hw
          simp only [pendingWork]
          rcases mem_of_mem_set hmem with hold | hnew
          · obtain ⟨hwb, hwr⟩ := hp th2 hold w hw
            simp only [pendingWork] at hwb
            exact ⟨by omega, hwr⟩
          · subst hnew
            simp at hw

/-- A whole schedule preserves the race invariant. -/
theorem raceRun_inv {bound : Nat} :
    ∀ (evs : List RaceEvent) (s s2 : RaceState), raceRun s evs = some s2 →
      RaceInv bound s → RaceInv bound s2 := by
  intro evs
  induction evs with
  | nil =>
    intro s s2 h hinv
    simp [raceRun] at h
    subst h
    exact hinv
  | cons e rest ih =>
    intro s s2 h hinv
    unfold raceRun at h
    cases hs : raceStep s e with
    | none => rw [hs] at h; exact absurd h (by simp)
    | some s1 =>
      rw [hs] at h
      exact ih s1 s2 h (raceStep_inv hs hinv)

/-- The initial state of the racy demo satisfies the invariant at `w * l`. -/
theorem raceInit_inv (w l : Nat) : RaceInv (w * l) (raceInit w l) := by
  constructor
  · simp [raceInit, pendingWork, List.map_replicate, List.sum_replicate, smul_eq_mul,
      Nat.mul_comm]
  · intro th hmem v hv
    have := List.eq_of_mem_replicate hmem
    subst this
    simp at hv

/-- C2: for every worker count `w`, loop count `l`, and every interleaving of
the read and write halves of the workers' unguarded read-modify-write cycles
that runs all workers to completion, `unsafe_increment(w, l)` returns a value
at most `w * l` (lost updates can only lose increments, never invent them). -/
theorem racy_increment_bounded (w l : Nat) (evs : List RaceEvent) (s : RaceState)
    (hrun : raceRun (raceInit w l) evs = some s) (_hdone : raceDone s = true) :
    s.counter ≤ w * l := by
  have hinv := raceRun_inv evs (raceInit w l) s hrun (raceInit_inv w l)
  have := hinv.1
  omega

/-- Witness for C2: two workers, one loop each, scheduled read-read-write-write;
both writes store 1, so one update is lost and the counter stays at 1 ≤ 2. -/
theorem racy_increment_bounded_witness :
    ∃ s, raceRun (raceInit 2 1)
        [RaceEvent.read 0, RaceEvent.read 1, RaceEvent.write 0, RaceEvent.write 1] =
        some s ∧ raceDone s = true ∧ s.counter ≤ 2 * 1 := by
  refine ⟨{ counter := 1,
            threads := [{ rem := 0, tmp := none }, { rem := 0, tmp := none }] },
    by decide, by decide, ?_⟩
  exact racy_increment_bounded 2 1
    [RaceEvent.read 0, RaceEvent.read 1, RaceEvent.write 0, RaceEvent.write 1]
    { counter := 1, threads := [{ rem := 0, tmp := none }, { rem := 0, tmp := none }] }
    (by decide) (by decide)

/-! ## Producer-consumer demo: `producer_consumer` in `threading_basics.py`

One producer thread enqueues the items `0 .. num_items-1` in order into a
FIFO `queue.Queue`, then enqueues the sentinel `None`; one consumer thread
repeatedly dequeues, stopping at the sentinel and appending `item * 2` to the
shared result list otherwise.  The queue is modelled as the list of its
current contents front-first with `Option Nat` entries (`none` is the `None`
sentinel); a scheduling interleaves producer and consumer actions, and a
dequeue on an empty queue simply blocks (no event is enabled). -/

/-- Shared state of the producer-consumer demo. -/
structure PCState where
  produced : Nat
  sentinelSent : Bool
  queue : List (Option Nat)
  results : List Nat
  consumerDone : Bool
deriving DecidableEq

/-- One scheduling event of the producer-consumer demo. -/
inductive PCEvent where
  | produce
  | sendSentinel
  | consume
deriving DecidableEq

/-- Initial state: nothing produced, empty queue, no results. -/
def pcInit : PCState :=
  { produced := 0, sentinelSent := false, queue := [], results := [], consumerDone := false }

/-- One event of the demo with `n = num_items`.  `produce` is the producer's
next `q.put(i)` (enabled while items remain, in program order before the
sentinel); `sendSentinel` is the producer's final `q.put(None)`; `consume` is
one iteration of the consumer loop: dequeue the front item (blocking, hence
only enabled on a non-empty queue), stop on the sentinel, otherwise append
`item * 2` to the results. -/
def pcStep (n : Nat) (s : PCState) (e : PCEvent) : Option PCState :=
  match e with
  | PCEvent.produce =>
    if s.produced < n then
      some { s with queue := s.queue ++ [some s.produced], produced := s.produced + 1 }
    else none
  | PCEvent.sendSentinel =>
    if s.produced = n ∧ s.sentinelSent = false then
      some { s with queue := s.queue ++ [none], sentinelSent := true }
    else none
  | PCEvent.consume =>
    if s.consumerDone then none
    else
      match s.queue with
      | [] => none
      | item :: rest =>
        match item with
        | none => some { s with queue := rest, consumerDone := true }
        | some v => some { s with queue := rest, results := s.results ++ [v * 2] }

/-- Run a schedule of producer-consumer events from a state. -/
def pcRun (n : Nat) (s : PCState) : List PCEvent → Option PCState
  | [] => some s
  | e :: evs =>
    match pcStep n s e with
    | some s2 => pcRun n s2 evs
    | none => none

/-- Both threads have terminated (the two `join` calls return): the producer
has enqueued all items and the sentinel, and the consumer has consumed it. -/
def pcFinal (n : Nat) (s : PCState) : Bool :=
  (s.produced == n) && s.sentinelSent && s.consumerDone

/-- Inductive invariant of the producer-consumer demo: some prefix
`0 .. k-1` of the items has been consumed (doubled, in order), the queue
holds exactly the not-yet-consumed items `k .. produced-1` in order followed
by the sentinel if it was sent, and the consumer is done only after
consuming the sentinel, which is sent only after all `n` items. -/
def PCInv (n : Nat) (s : PCState) : Prop :=
  ∃ k, k ≤ s.produced ∧ s.produced ≤ n ∧
    s.results = (List.range k).map (fun i => i * 2) ∧
    (s.sentinelSent = true → s.produced = n) ∧
    (s.consumerDone = true → s.sentinelSent = true ∧ k = n ∧ s.queue = []) ∧
    (s.consumerDone = false →
      s.queue = ((List.range' k (s.produced - k)).map Option.some) ++
        (if s.sentinelSent then [Option.none] else []))

/-- One producer or consumer event preserves the producer-consumer invariant. -/
theorem pcStep_inv {n : Nat} {s s2 : PCState} {e : PCEvent}
    (h : pcStep n s e = some s2) (hinv : PCInv n s) : PCInv n s2 := by
  obtain ⟨k, hk, hpn, hres, hsent, hdone, hqueue⟩ := hinv
  cases e with
  | produce =>
    simp only [pcStep] at h
    by_cases hlt : s.produced < n
    · rw [if_pos hlt] at h
      injection h with h
      subst h
      dsimp only [PCInv]
      have hss : s.sentinelSent = false := by
        cases hs2 : s.sentinelSent
        · rfl
        · exact absurd (hsent hs2) (by omega)
      have hcd : s.consumerDone = false := by
        cases hc2 : s.consumerDone
        · rfl
        · have := (hdone hc2).1
          rw [hss] at this
          exact Bool.noConfusion this
      have hq := hqueue hcd
      rw [hss] at hq
      simp only [Bool.false_eq_true, if_false, List.append_nil] at hq
      refine ⟨k, by omega, by omega, hres, ?_, ?_, ?_⟩
      · intro habs
        have habs2 : s.sentinelSent = true := habs
        rw [hss] at habs2
        exact Bool.noConfusion habs2
      · intro habs
        have habs2 : s.consumerDone = true := habs
        rw [hcd] at habs2
        exact Bool.noConfusion habs2
      · intro _
        show s.queue ++ [some s.produced] =
          (List.range' k (s.produced + 1 - k)).map Option.some ++
            (if s.sentinelSent then [Option.none] else [])
        rw [hq, hss]
        simp only [Bool.false_eq_true, if_false, List.append_nil]
        have hstep : s.produced + 1 - k = (s.produced - k) + 1 := by omega
        rw [hstep, List.range'_1_concat, List.map_append]
        have : k + (s.produced - k) = s.produced := by omega
        rw [this]
        rfl
    · rw [if_neg hlt] at h
      exact Option.noConfusion h
  | sendSentinel =>
    simp only [pcStep] at h
    by_cases hcond : s.produced = n ∧ s.sentinelSent = false
    · rw [if_pos hcond] at h
      injection h with h
      subst h
      dsimp only [PCInv]
      have hcd : s.consumerDone = false := by
        cases hc2 : s.consumerDone
        · rfl
        · have := (hdone hc2).1
          rw [hcond.2] at this
          exact Bool.noConfusion this
      have hq := hqueue hcd
      rw [hcond.2] at hq
      simp only [Bool.false_eq_true, if_false, List.append_nil] at hq
      refine ⟨k, by omega, by omega, hres, ?_, ?_, ?_⟩
      · intro _
        exact hcond.1
      · intro habs
        have habs2 : s.consumerDone = true := habs
        rw [hcd] at habs2
        exact Bool.noConfusion habs2
      · intro _
        show s.queue ++ [Option.none] =
          (List.range' k (s.produced - k)).map Option.some ++
            (if (true : Bool) then [Option.none] else [])
        rw [hq]
        rfl
    · rw [if_neg hcond] at h
      exact Option.noConfusion h
  | consume =>
    simp only [pcStep] at h
    cases hcd : s.consumerDone with
    | true =>
      rw [hcd] at h
      simp only [if_true] at h
      exact Option.noConfusion h
    | false =>
      rw [hcd] at h
      simp only [Bool.false_eq_true, if_false] at h
      have hq := hqueue hcd
      rcases Nat.eq_zero_or_pos (s.produced - k) with hm | hm
      · rw [hm] at hq
        simp only [List.range'_zero, List.map_nil, List.nil_append] at hq
        cases hss : s.sentinelSent with
        | false =>
          rw [hss] at hq
          simp only [Bool.false_eq_true, if_false] at hq
          rw [hq] at h
          exact Option.noConfusion h
        | true =>
          rw [hss] at hq
          simp only [if_true] at hq
          rw [hq] at h
          injection h with h
          subst h
          dsimp only [PCInv]
          have hkn : k = n := by
            have := hsent hss
            omega
          refine ⟨k, by omega, by omega, hres, fun _ => hsent hss, ?_, ?_⟩
          · intro _
            exact ⟨hss, hkn, rfl⟩
          · intro habs
            exact Bool.noConfusion habs
      · obtain ⟨m, hm2⟩ : ∃ m, s.produced - k = m + 1 := ⟨s.produced - k - 1, by omega⟩
        rw [hm2, List.range'_succ] at hq
        simp only [List.map_cons] at hq
        rw [hq] at h
        injection h with h
        subst h
        dsimp only [PCInv]
        refine ⟨k + 1, by omega, by omega, ?_, hsent, ?_, ?_⟩
        · show s.results ++ [k * 2] = (List.range (k + 1)).map (fun i => i * 2)
          rw [List.range_succ, List.map_append, hres]
          rfl
        · intro habs
          exact Bool.noConfusion habs
        · intro _
          show (List.range' (k + 1) m).map Option.some ++
              (if s.sentinelSent then [Option.none] else []) =
            (List.range' (k + 1) (s.produced - (k + 1))).map Option.some ++
              (if s.sentinelSent then [Option.none] else [])
          have : s.produced - (k + 1) = m := by omega
          rw [this]

/-- A whole schedule preserves the producer-consumer invariant. -/
theorem pcRun_inv {n : Nat} :
    ∀ (evs : List PCEvent) (s s2 : PCState), pcRun n s evs = some s2 →
      PCInv n s → PCInv n s2 := by
  intro evs
  induction evs with
  | nil =>
    intro s s2 h hinv
    simp [pcRun] at h
    subst h
    exact hinv
  | cons e rest ih =>
    intro s s2 h hinv
    unfold pcRun at h
    cases hs : pcStep n s e with
    | none => rw [hs] at h; exact absurd h (by simp)
    | some s1 =>
      rw [hs] at h
      exact ih s1 s2 h (pcStep_inv hs hinv)

/-- The initial state satisfies the producer-consumer invariant. -/
theorem pcInit_inv (n : Nat) : PCInv n pcInit := by
  dsimp only [PCInv, pcInit]
  refine ⟨0, by omega, by omega, rfl, ?_, ?_, ?_⟩
  · intro habs
    exact Bool.noConfusion habs
  · intro habs
    exact Bool.noConfusion habs
  · intro _
    rfl

/-- C3: for every item count `n` and every interleaving of producer and
consumer that runs both to completion, `producer_consumer(n)` returns exactly
`[0, 2, 4, ..., 2*(n-1)]`: each input is transformed (doubled) exactly once,
in producer enqueue order, with no item lost, duplicated, or misinterpreted
as the terminal sentinel. -/
theorem producer_consumer_correct (n : Nat) (evs : List PCEvent) (s : PCState)
    (hrun : pcRun n pcInit evs = some s) (hfin : pcFinal n s = true) :
    s.results = (List.range n).map (fun i => i * 2) := by
  obtain ⟨k, hk, hpn, hres, hsent, hdone, hqueue⟩ := pcRun_inv evs pcInit s hrun (pcInit_inv n)
  have hcd : s.consumerDone = true := by
    simp only [pcFinal, Bool.and_eq_true] at hfin
    exact hfin.2
  obtain ⟨hss, hkn, hq⟩ := hdone hcd
  rw [hres, hkn]

/-- Witness for C3: five items under an interleaved schedule with the
consumer racing the producer; the result is exactly `[0, 2, 4, 6, 8]`. -/
theorem producer_consumer_correct_witness :
    ∃ s, pcRun 5 pcInit
        [PCEvent.produce, PCEvent.consume, PCEvent.produce, PCEvent.produce,
         PCEvent.consume, PCEvent.produce, PCEvent.consume, PCEvent.produce,
         PCEvent.sendSentinel, PCEvent.consume, PCEvent.consume, PCEvent.consume] =
        some s ∧ pcFinal 5 s = true ∧
      s.results = (List.range 5).map (fun i => i * 2) := by
  refine ⟨{ produced := 5, sentinelSent := true, queue := [],
            results := [0, 2, 4, 6, 8], consumerDone := true }, by decide, by decide, ?_⟩
  exact producer_consumer_correct 5
    [PCEvent.produce, PCEvent.consume, PCEvent.produce, PCEvent.produce,
     PCEvent.consume, PCEvent.produce, PCEvent.consume, PCEvent.produce,
     PCEvent.sendSentinel, PCEvent.consume, PCEvent.consume, PCEvent.consume]
    { produced := 5, sentinelSent := true, queue := [],
      results := [0, 2, 4, 6, 8], consumerDone := true } (by decide) (by decide)

/-! ## Process pool: `run_process_pool` in `src/cpu_multiprocessing.py`

`run_process_pool(nums)` submits `fib_task(n)` for each `n` in `nums` to a
`ProcessPoolExecutor`, then collects `(n, fut.result())` pairs in
`as_completed` order, which is an arbitrary permutation of the submitted
tasks; a task whose future raised is printed and excluded.  The completion
order is modelled as an explicit permutation `order` of `nums`. -/

/-- Embedding of `fib_task` from `cpu_multiprocessing.py`: the picklable
top-level worker just calls `fib`. -/
def fib_task (n : Int) : Except String Int :=
  fib n

/-- Embedding of `run_process_pool`: collect `(n, fib_task n)` for each task
in completion order `order`, excluding tasks whose future raised. -/
def run_process_pool (order : List Int) : List (Int × Int) :=
  order.filterMap (fun n =>
    match fib_task n with
    | Except.ok v => some (n, v)
    | Except.error _ => none)

/-- Single-threaded serial baseline of `main` in `cpu_multiprocessing.py`:
the comprehension `[(n, fib_task(n)) for n in nums]`, evaluated left to
right, with a raised exception propagating to the caller. -/
def serial_run : List Int → Except String (List (Int × Int))
  | [] => Except.ok []
  | n :: rest =>
    match fib n with
    | Except.error e => Except.error e
    | Except.ok v =>
      match serial_run rest with
      | Except.error e => Except.error e
      | Except.ok tail => Except.ok ((n, v) :: tail)

/-- Insert a pair into a list sorted by first component (insertion sort
step), used to order-normalize pool results by input. -/
def insertFst (p : Int × Int) : List (Int × Int) → List (Int × Int)
  | [] => [p]
  | q :: rest => if p.1 ≤ q.1 then p :: q :: rest else q :: insertFst p rest

/-- Sort a list of `(input, value)` pairs by input (insertion sort). -/
def sortByFst : List (Int × Int) → List (Int × Int)
  | [] => []
  | p :: rest => insertFst p (sortByFst rest)

/-- Sortedness by first component. -/
def SortedFst (l : List (Int × Int)) : Prop :=
  l.Pairwise (fun p q => p.1 ≤ q.1)

/-- Inserting preserves the multiset of elements. -/
theorem insertFst_perm (p : Int × Int) :
    ∀ l : List (Int × Int), List.Perm (insertFst p l) (p :: l) := by
  intro l
  induction l with
  | nil => simp [insertFst]
  | cons q rest ih =>
    simp only [insertFst]
    by_cases hle : p.1 ≤ q.1
    · rw [if_pos hle]
    · rw [if_neg hle]
      exact (ih.cons q).trans (List.Perm.swap p q rest)

/-- Sorting preserves the multiset of elements. -/
theorem sortByFst_perm : ∀ l : List (Int × Int), List.Perm (sortByFst l) l := by
  intro l
  induction l with
  | nil => exact List.Perm.refl []
  | cons p rest ih =>
    simp only [sortByFst]
    exact ((insertFst_perm p (sortByFst rest)).trans (ih.cons p))

/-- Inserting into a list sorted by first component keeps it sorted. -/
theorem sortedFst_insertFst (p : Int × Int) :
    ∀ l : List (Int × Int), SortedFst l → SortedFst (insertFst p l) := by
  intro l
  induction l with
  | nil =>
    intro _
    simp [insertFst, SortedFst]
  | cons q rest ih =>
    intro hs
    have hq : ∀ x ∈ rest, q.1 ≤ x.1 := fun x hx => List.rel_of_pairwise_cons hs hx
    have hrest : SortedFst rest := hs.of_cons
    simp only [insertFst]
    by_cases hle : p.1 ≤ q.1
    · rw [if_pos hle]
      refine List.Pairwise.cons ?_ hs
      intro x hx
      rcases List.mem_cons.mp hx with hx | hx
      · subst hx; exact hle
      · exact le_trans hle (hq x hx)
    · rw [if_neg hle]
      refine List.Pairwise.cons ?_ (ih hrest)
      intro x hx
      have hx2 : x ∈ p :: rest := (insertFst_perm p rest).subset hx
      rcases List.mem_cons.mp hx2 with hx2 | hx2
      · subst hx2
        exact le_of_lt (lt_of_not_le hle)
      · exact hq x hx2

/-- Sorting by first component yields a sorted list. -/
theorem sortedFst_sortByFst : ∀ l : List (Int × Int), SortedFst (sortByFst l) := by
  intro l
  induction l with
  | nil => simp [sortByFst, SortedFst]
  | cons p rest ih =>
    simp only [sortByFst]
    exact sortedFst_insertFst p (sortByFst rest) ih

/-- Two sorted-by-input lists that are permutations of one another and whose
second components are determined by the first are equal (sorting by input is
a canonical form for pool results, even with duplicate inputs). -/
theorem sorted_perm_eq (f : Int → Int) :
    ∀ l1 l2 : List (Int × Int), List.Perm l1 l2 → SortedFst l1 → SortedFst l2 →
      (∀ p ∈ l1, p.2 = f p.1) → l1 = l2 := by
  intro l1
  induction l1 with
  | nil =>
    intro l2 hperm _ _ _
    exact (hperm.nil_eq).symm ▸ rfl
  | cons a t1 ih =>
    intro l2 hperm hs1 hs2 hdet
    cases l2 with
    | nil => exact absurd hperm.eq_nil (by simp)
    | cons b t2 =>
      have ha1 : ∀ x ∈ t1, a.1 ≤ x.1 := fun x hx => List.rel_of_pairwise_cons hs1 hx
      have hb1 : ∀ x ∈ t2, b.1 ≤ x.1 := fun x hx => List.rel_of_pairwise_cons hs2 hx
      have hamem : a ∈ b :: t2 := hperm.subset (List.mem_cons_self a t1)
      have hbmem : b ∈ a :: t1 := hperm.symm.subset (List.mem_cons_self b t2)
      have hab : a = b := by
        rcases List.mem_cons.mp hamem with h | h
        · exact h
        · rcases List.mem_cons.mp hbmem with h2 | h2
          · exact h2.symm
          · have hkey : a.1 = b.1 := le_antisymm (ha1 b h2) (hb1 a h)
            have hva : a.2 = f a.1 := hdet a (List.mem_cons_self a t1)
            have hvb : b.2 = f b.1 := hdet b hbmem
            have hval : a.2 = b.2 := by rw [hva, hvb, hkey]
            exact Prod.ext hkey hval
      subst hab
      have htail : List.Perm t1 t2 := hperm.cons_inv
      have := ih t2 htail hs1.of_cons hs2.of_cons
        (fun p hp => hdet p (List.mem_cons_of_mem a hp))
      rw [this]

/-- With all inputs non-negative, every pool task succeeds and the collected
results are `(n, fibRef n)` in completion order. -/
theorem run_process_pool_nonneg_eq :
    ∀ order : List Int, (∀ n ∈ order, 0 ≤ n) →
      run_process_pool order = order.map (fun n => (n, fibRef n.toNat)) := by
  intro order
  induction order with
  | nil => intro _; rfl
  | cons n rest ih =>
    intro hnn
    have hn : 0 ≤ n := hnn n (List.mem_cons_self n rest)
    have hcast : ((n.toNat : Nat) : Int) = n := Int.toNat_of_nonneg hn
    have hfib : fib_task n = Except.ok (fibRef n.toNat) := by
      unfold fib_task
      rw [← hcast, fib_ofNat]
      rw [hcast]
    simp only [run_process_pool, List.filterMap_cons, hfib, List.map_cons]
    congr 1
    exact ih (fun m hm => hnn m (List.mem_cons_of_mem n hm))

/-- With all inputs non-negative, the serial baseline raises nothing and
returns `(n, fibRef n)` in input order. -/
theorem serial_run_nonneg :
    ∀ nums : List Int, (∀ n ∈ nums, 0 ≤ n) →
      serial_run nums = Except.ok (nums.map (fun n => (n, fibRef n.toNat))) := by
  intro nums
  induction nums with
  | nil => intro _; rfl
  | cons n rest ih =>
    intro hnn
    have hn : 0 ≤ n := hnn n (List.mem_cons_self n rest)
    have hcast : ((n.toNat : Nat) : Int) = n := Int.toNat_of_nonneg hn
    have hfib : fib n = Except.ok (fibRef n.toNat) := by
      rw [← hcast, fib_ofNat]
      rw [hcast]
    have hrest := ih (fun m hm => hnn m (List.mem_cons_of_mem n hm))
    simp only [serial_run, hfib, hrest, List.map_cons]

/-- C4: for every list of non-negative inputs and every completion order of
the worker processes, `run_process_pool`, once sorted by input, equals the
serial single-threaded baseline `[(n, fib(n)) for n in nums]` sorted by
input — process-parallel execution does not alter any returned value. -/
theorem run_process_pool_refines (nums order : List Int)
    (hperm : List.Perm order nums) (hnn : ∀ n ∈ nums, 0 ≤ n) :
    ∃ ref, serial_run nums = Except.ok ref ∧
      sortByFst (run_process_pool order) = sortByFst ref := by
  have hnnord : ∀ n ∈ order, 0 ≤ n := fun n hn => hnn n (hperm.subset hn)
  refine ⟨nums.map (fun n => (n, fibRef n.toNat)), serial_run_nonneg nums hnn, ?_⟩
  rw [run_process_pool_nonneg_eq order hnnord]
  apply sorted_perm_eq (fun x => fibRef x.toNat)
  · exact (sortByFst_perm _).trans
      ((hperm.map (fun n => (n, fibRef n.toNat))).trans (sortByFst_perm _).symm)
  · exact sortedFst_sortByFst _
  · exact sortedFst_sortByFst _
  · intro p hp
    have hp2 : p ∈ order.map (fun n => (n, fibRef n.toNat)) := (sortByFst_perm _).subset hp
    obtain ⟨n, hn, hpn⟩ := List.mem_map.mp hp2
    rw [← hpn]

/-- Witness for C4 at `nums = [20, 21, 22]` with completion order
`[22, 20, 21]`. -/
theorem run_process_pool_refines_witness :
    ∃ ref, serial_run [20, 21, 22] = Except.ok ref ∧
      sortByFst (run_process_pool [22, 20, 21]) = sortByFst ref :=
  run_process_pool_refines [20, 21, 22] [22, 20, 21] (by decide) (by decide)

/-! ## Thread-pool fan-out: `parallel_sleep` in `threading_basics.py`

`parallel_sleep(n, duration)` submits the tasks `_task(0) .. _task(n-1)` to a
`ThreadPoolExecutor`; `_task(i)` sleeps and returns the pair
`(i, elapsed_i)`.  The collection loop walks the futures in `as_completed`
order (an arbitrary permutation of `range(n)`), appends `f.result()` on
success, and on an exception logs it and moves on, excluding that task from
the result list.  The wall-clock elapsed readings are abstract values of a
type `Q`, and `res i` is task `i`'s outcome: `Except.ok` of its elapsed
reading, or `Except.error` if the task raised. -/

/-- Embedding of `parallel_sleep`'s collection loop: walk the futures in
completion order `order`, keep `(i, elapsed)` for each task that succeeded,
skip (log) each task that raised. -/
def parallel_sleep {Q : Type} (res : Nat → Except String Q) (order : List Nat) :
    List (Nat × Q) :=
  order.filterMap (fun i =>
    match res i with
    | Except.ok q => some (i, q)
    | Except.error _ => none)

/-- Success test for a task outcome. -/
def exOk {ε α : Type} : Except ε α → Bool
  | Except.ok _ => true
  | Except.error _ => false

/-- Filtering the successful tasks out of any completion order. -/
theorem parallel_sleep_fst_eq {Q : Type} (res : Nat → Except String Q) :
    ∀ order : List Nat,
      (parallel_sleep res order).map Prod.fst = order.filter (fun i => exOk (res i)) := by
  intro order
  induction order with
  | nil => rfl
  | cons i rest ih =>
    simp only [parallel_sleep, List.filterMap_cons] at ih ⊢
    cases hres : res i with
    | ok q =>
      simp [List.map_cons, List.filter_cons, exOk, hres, ih]
    | error e =>
      simp [List.filter_cons, exOk, hres, ih]

/-- C8: for every `n ≥ 1` and every completion order of the `n` submitted
tasks: when no task fails, `parallel_sleep` returns exactly `n`
`(index, elapsed)` pairs whose indices are exactly `0 .. n-1`, each appearing
once; in general every pair returned is the successful outcome of its own
task, a task that raises is excluded from the returned list, and every other
task still contributes its result (the batch is not aborted). -/
theorem parallel_sleep_correct {Q : Type} (n : Nat) (res : Nat → Except String Q)
    (order : List Nat) (_hn : 1 ≤ n) (hord : List.Perm order (List.range n)) :
    ((∀ i, i < n → ∃ q, res i = Except.ok q) →
      (parallel_sleep res order).length = n ∧
      List.Perm ((parallel_sleep res order).map Prod.fst) (List.range n)) ∧
    List.Perm ((parallel_sleep res order).map Prod.fst)
      ((List.range n).filter (fun i => exOk (res i))) ∧
    (∀ p ∈ parallel_sleep res order, res p.1 = Except.ok p.2) := by
  have hfilter : List.Perm ((parallel_sleep res order).map Prod.fst)
      ((List.range n).filter (fun i => exOk (res i))) := by
    rw [parallel_sleep_fst_eq]
    exact hord.filter _
  refine ⟨?_, hfilter, ?_⟩
  · intro hok
    have hall : (List.range n).filter (fun i => exOk (res i)) = List.range n := by
      rw [List.filter_eq_self]
      intro i hi
      obtain ⟨q, hq⟩ := hok i (List.mem_range.mp hi)
      simp [exOk, hq]
    rw [hall] at hfilter
    constructor
    · have := hfilter.length_eq
      simpa [List.length_map, List.length_range] using this
    · exact hfilter
  · intro p hp
    obtain ⟨i, hi, hpi⟩ := List.mem_filterMap.mp hp
    cases hres : res i with
    | ok q =>
      rw [hres] at hpi
      simp only [Option.some.injEq] at hpi
      subst hpi
      exact hres
    | error e =>
      rw [hres] at hpi
      exact Option.noConfusion hpi

/-- Witness for C8: four all-successful tasks collected in completion order
`[2, 0, 3, 1]`. -/
theorem parallel_sleep_correct_witness :
    (parallel_sleep (fun i => (Except.ok (10 + i) : Except String Nat)) [2, 0, 3, 1]).length
      = 4 ∧
    List.Perm ((parallel_sleep (fun i => (Except.ok (10 + i) : Except String Nat))
      [2, 0, 3, 1]).map Prod.fst) (List.range 4) :=
  (parallel_sleep_correct 4 (fun i => (Except.ok (10 + i) : Except String Nat))
    [2, 0, 3, 1] (by decide) (by decide)).1 (fun i _ => ⟨10 + i, rfl⟩)
